import Mathlib

/-!
Shallow embedding of the brainfuck interpreter in `src/main.rs`:
a tokenizer/assembler (`tokenize_lines`) that resolves loop brackets
into mutual jump targets, and an executor (`run_brainfuck`) stepping a
fixed 32768-cell byte tape in strict or permissive mode.
-/

/-- Mirrors the Rust `Token` struct: an opcode character, an optional
jump target (present only for resolved brackets), and the 1-based
source line it came from. -/
structure Token where
  opcode : Char
  jump_addr : Option Nat
  line : Nat
deriving Repr, DecidableEq

/-- The eight recognized opcode characters of `code_tokens` in the source. -/
def opcode_chars : List Char := ['<', '>', '+', '-', ',', '.', '[', ']']

/-- The comment-start characters of `comment_tokens` in the source. -/
def comment_tokens : List Char := ['#', '/', ';']

/-- Rust `char::is_whitespace`: the Unicode White_Space property,
enumerated by code point. -/
def rust_is_whitespace (c : Char) : Bool :=
  decide ((9 ≤ c.toNat ∧ c.toNat ≤ 13) ∨ c.toNat = 32 ∨ c.toNat = 133 ∨
    c.toNat = 160 ∨ c.toNat = 5760 ∨ (8192 ≤ c.toNat ∧ c.toNat ≤ 8202) ∨
    c.toNat = 8232 ∨ c.toNat = 8233 ∨ c.toNat = 8239 ∨ c.toNat = 8287 ∨
    c.toNat = 12288)

/-- The tokenizer's mutable state: the emitted instruction stream
(`opcode_tokens`), the stack of pending loop-open indices
(`scope_open_addrs`, head is the top), and the accumulated
unrecognized-character warnings (a structured rendering of the
`println!("Unknown character on line ...")` diagnostics). -/
structure TkState where
  opcode_tokens : List Token
  scope_open_addrs : List Nat
  warnings : List (Nat × Char)
deriving Repr, DecidableEq

/-- The two ways `tokenize_lines` aborts.  `unmatchedClose` models the
`expect` panic "Tried to pop a scope that wasn't opened on line n" and
carries that line.  `unmatchedOpen` models the final
`assert_eq!(scope_open_addrs.len(), 0)` panic, whose message carries no
source line. -/
inductive TokError where
  | unmatchedClose (line : Nat)
  | unmatchedOpen
deriving Repr, DecidableEq

/-- Which brainfuck-source line number a tokenizer failure message
names, if any. -/
def TokError.namedLine : TokError → Option Nat
  | .unmatchedClose ln => some ln
  | .unmatchedOpen => none

/-- Overwrite the `jump_addr` of the token at index `a` (the Rust
`opcode_tokens.get_mut(scope_open_addr).unwrap().jump_addr = Some(j)`). -/
def setJumpAt : List Token → Nat → Nat → List Token
  | [], _, _ => []
  | t :: ts, 0, j => { t with jump_addr := some j } :: ts
  | t :: ts, a + 1, j => t :: setJumpAt ts a j

/-- One source line of the character-classification loop in
`tokenize_lines`: recognized opcodes are emitted (brackets maintaining
the scope stack and mutual jump targets), a comment char abandons the
rest of the line, whitespace is skipped, anything else is warned about
and skipped. -/
def tokenizeLine (ln : Nat) : List Char → TkState → Except TokError TkState
  | [], st => .ok st
  | c :: rest, st =>
    if c ∈ opcode_chars then
      if c = '[' then
        tokenizeLine ln rest
          { st with
            opcode_tokens := st.opcode_tokens ++ [⟨'[', none, ln⟩],
            scope_open_addrs := st.opcode_tokens.length :: st.scope_open_addrs }
      else if c = ']' then
        match st.scope_open_addrs with
        | [] => .error (.unmatchedClose ln)
        | a :: restStack =>
          tokenizeLine ln rest
            { st with
              opcode_tokens :=
                setJumpAt (st.opcode_tokens ++ [⟨']', some a, ln⟩]) a
                  st.opcode_tokens.length,
              scope_open_addrs := restStack }
      else
        tokenizeLine ln rest
          { st with opcode_tokens := st.opcode_tokens ++ [⟨c, none, ln⟩] }
    else if c ∈ comment_tokens then
      .ok st
    else if rust_is_whitespace c then
      tokenizeLine ln rest st
    else
      tokenizeLine ln rest { st with warnings := st.warnings ++ [(ln, c)] }

/-- The outer loop of `tokenize_lines` over the enumerated source lines
(`ln` is the 1-based number of the next line). -/
def tokenizeGo : Nat → List (List Char) → TkState → Except TokError TkState
  | _, [], st => .ok st
  | ln, l :: ls, st =>
    match tokenizeLine ln l st with
    | .error e => .error e
    | .ok st' => tokenizeGo (ln + 1) ls st'

/-- `tokenize_lines` on lines already split into characters: run the
scan from the empty state, then enforce the final
`assert_eq!(scope_open_addrs.len(), 0)` (no dangling loop-open). -/
def tokenize_chars (lls : List (List Char)) : Except TokError (List Token) :=
  match tokenizeGo 1 lls ⟨[], [], []⟩ with
  | .error e => .error e
  | .ok st =>
    if st.scope_open_addrs = [] then .ok st.opcode_tokens
    else .error .unmatchedOpen

/-- The Rust `tokenize_lines(lines: Vec<String>) -> Vec<Token>`, with
the two panic paths made explicit as `TokError`. -/
def tokenize_lines (lines : List String) : Except TokError (List Token) :=
  tokenize_chars (lines.map String.toList)

/-- The executor's state in `run_brainfuck`: instruction pointer, data
pointer, the tape (a total function standing for the
`[u8; 32768]` array; only indices below 32768 are ever used), the bytes
written to stdout so far, and the pending input (code points to be
returned by `term.read_char()`). -/
structure ExecState where
  inst_ptr : Nat
  data_ptr : Nat
  data_cells : Nat → Nat
  output : List Nat
  input : List Nat

/-- `data_size = data_cells.len() - 1 = 32767` in `run_brainfuck`. -/
def data_size : Nat := 32767

/-- Pointwise array store: `data_cells[i] = v`. -/
def upd (f : Nat → Nat) (i v : Nat) : Nat → Nat :=
  fun j => if j = i then v else f j

/-- The bytes `print!("{}", v as char)` sends to stdout for a cell
value `v ≤ 255`: the UTF-8 encoding of the code point `v`, which is
one byte below 128 and two bytes above. -/
def utf8_bytes (v : Nat) : List Nat :=
  if v < 128 then [v] else [192 + v / 64, 128 + v % 64]

/-- The panics `run_brainfuck` can raise: the four strict-mode boundary
faults and the input-read failure, each carrying the source line its
message reports, plus the (structurally unreachable) panic of
`jump_addr.unwrap()` on a bracket token with no resolved target. -/
inductive Fault where
  | pointerUnderflow (line : Nat)
  | pointerOverflow (line : Nat)
  | cellOverflow (line : Nat)
  | cellUnderflow (line : Nat)
  | inputFailure (line : Nat)
  | unwrapNone
deriving Repr, DecidableEq

/-- Result of executing one instruction: either the next state, or a
panic together with the memory state at the moment of the panic. -/
inductive StepResult where
  | ok (s : ExecState)
  | fault (f : Fault) (s : ExecState)

/-- One iteration of the `while` loop in `run_brainfuck`, executing the
instruction `t` (assumed to be `opcode_tokens[inst_ptr]`); the
`match curr_inst.opcode` of the source rendered as a decision chain. -/
def step (strict : Bool) (t : Token) (s : ExecState) : StepResult :=
  if t.opcode = '<' then
    if s.data_ptr > 0 then
      .ok { s with data_ptr := s.data_ptr - 1, inst_ptr := s.inst_ptr + 1 }
    else if strict then .fault (.pointerUnderflow t.line) s
    else .ok { s with data_ptr := data_size, inst_ptr := s.inst_ptr + 1 }
  else if t.opcode = '>' then
    if s.data_ptr < data_size then
      .ok { s with data_ptr := s.data_ptr + 1, inst_ptr := s.inst_ptr + 1 }
    else if strict then .fault (.pointerOverflow t.line) s
    else .ok { s with data_ptr := 0, inst_ptr := s.inst_ptr + 1 }
  else if t.opcode = '+' then
    if strict then
      if s.data_cells s.data_ptr = 255 then .fault (.cellOverflow t.line) s
      else
        .ok { s with
              data_cells := upd s.data_cells s.data_ptr (s.data_cells s.data_ptr + 1),
              inst_ptr := s.inst_ptr + 1 }
    else
      .ok { s with
            data_cells := upd s.data_cells s.data_ptr ((s.data_cells s.data_ptr + 1) % 256),
            inst_ptr := s.inst_ptr + 1 }
  else if t.opcode = '-' then
    if strict then
      if s.data_cells s.data_ptr = 0 then .fault (.cellUnderflow t.line) s
      else
        .ok { s with
              data_cells := upd s.data_cells s.data_ptr (s.data_cells s.data_ptr - 1),
              inst_ptr := s.inst_ptr + 1 }
    else
      .ok { s with
            data_cells := upd s.data_cells s.data_ptr ((s.data_cells s.data_ptr + 255) % 256),
            inst_ptr := s.inst_ptr + 1 }
  else if t.opcode = '.' then
    .ok { s with
          output := s.output ++ utf8_bytes (s.data_cells s.data_ptr),
          inst_ptr := s.inst_ptr + 1 }
  else if t.opcode = ',' then
    match s.input with
    | [] => .fault (.inputFailure t.line) s
    | b :: rest =>
      .ok { s with
            data_cells := upd s.data_cells s.data_ptr (b % 256),
            input := rest,
            inst_ptr := s.inst_ptr + 1 }
  else if t.opcode = '[' then
    match t.jump_addr with
    | none => .fault .unwrapNone s
    | some j =>
      if s.data_cells s.data_ptr = 0 then .ok { s with inst_ptr := j + 1 }
      else .ok { s with inst_ptr := s.inst_ptr + 1 }
  else if t.opcode = ']' then
    match t.jump_addr with
    | none => .fault .unwrapNone s
    | some j =>
      if s.data_cells s.data_ptr ≠ 0 then .ok { s with inst_ptr := j + 1 }
      else .ok { s with inst_ptr := s.inst_ptr + 1 }
  else .ok { s with inst_ptr := s.inst_ptr + 1 }

/-- The `while inst_ptr < opcode_tokens.len()` loop of `run_brainfuck`,
with explicit fuel; `none` means the fuel ran out before the loop
finished.  The loop condition `inst_ptr < len` holds exactly when
`tokens.get? inst_ptr` is `some`, so fetching by `get?` models both the
condition and the `opcode_tokens[inst_ptr]` access. -/
def run_fuel (strict : Bool) (tokens : List Token) : Nat → ExecState → Option StepResult
  | 0, _ => none
  | fuel + 1, s =>
    match tokens[s.inst_ptr]? with
    | none => some (.ok s)
    | some t =>
      match step strict t s with
      | .ok s' => run_fuel strict tokens fuel s'
      | .fault f s' => some (.fault f s')

/-- The fresh state `run_brainfuck` starts from: zeroed tape, both
pointers at 0, no output yet, with the pending terminal input injected. -/
def init_state (input : List Nat) : ExecState :=
  ⟨0, 0, fun _ => 0, [], input⟩

/-- `main`'s composition: assemble, then (only on success) run. -/
def interp (lines : List String) (strict : Bool) (input : List Nat)
    (fuel : Nat) : Except TokError (Option StepResult) :=
  (tokenize_lines lines).map (fun ts => run_fuel strict ts fuel (init_state input))

/-! Specification-side predicates used to state the claims. -/

/-- The characters of one raw source line that emit instructions:
opcode characters up to (not including) the first comment character;
whitespace and unrecognized characters drop out. -/
def lineCode : List Char → List Char
  | [] => []
  | c :: rest =>
    if c ∈ opcode_chars then c :: lineCode rest
    else if c ∈ comment_tokens then []
    else lineCode rest

/-- All instruction-emitting characters of a program, in emission order. -/
def codeJoin (lls : List (List Char)) : List Char := (lls.map lineCode).flatten

/-- All instruction-emitting characters of a program given as strings. -/
def progCode (lines : List String) : List Char :=
  codeJoin (lines.map String.toList)

/-- Bracket-depth scan: starting from depth `d`, `none` when a `]`
arrives at depth 0 (an unmatched close), otherwise the final depth.
A program's brackets are balanced exactly when this returns `some 0`
from depth 0. -/
def balScan : List Char → Nat → Option Nat
  | [], d => some d
  | c :: cs, d =>
    if c = '[' then balScan cs (d + 1)
    else if c = ']' then
      match d with
      | 0 => none
      | d' + 1 => balScan cs d'
    else balScan cs d

/-- The 1-based number of the first line on which the bracket scan
underflows (a close with no pending open), if any; `ln` is the number
of the first listed line and `d` the incoming depth. -/
def underflowLine : Nat → List (List Char) → Nat → Option Nat
  | _, [], _ => none
  | ln, l :: ls, d =>
    match balScan (lineCode l) d with
    | none => some ln
    | some d' => underflowLine (ln + 1) ls d'

/-- Two tokenizer outcomes that agree on everything except the
accumulated warnings: same error, or same stream and same scope stack. -/
def SameCode : Except TokError TkState → Except TokError TkState → Prop
  | .error e₁, .error e₂ => e₁ = e₂
  | .ok r₁, .ok r₂ =>
      r₁.opcode_tokens = r₂.opcode_tokens ∧
      r₁.scope_open_addrs = r₂.scope_open_addrs
  | _, _ => False

/-- Well-formed instruction stream: every resolved jump target is a
valid index. -/
def WF (tokens : List Token) : Prop :=
  ∀ t ∈ tokens, ∀ j, t.jump_addr = some j → j < tokens.length

/-- The executor's state invariant: data pointer on the tape, every
cell a byte, instruction pointer at most one past the end. -/
def ExecInv (tokens : List Token) (s : ExecState) : Prop :=
  s.data_ptr ≤ data_size ∧ (∀ i, s.data_cells i ≤ 255) ∧
  s.inst_ptr ≤ tokens.length

/-- The tokenizer's bracket-pairing invariant, maintained across every
character of the scan. -/
structure TkInv (st : TkState) : Prop where
  stack_lt : ∀ a ∈ st.scope_open_addrs, a < st.opcode_tokens.length
  stack_open : ∀ a ∈ st.scope_open_addrs, ∃ t : Token,
    st.opcode_tokens[a]? = some t ∧ t.opcode = '[' ∧ t.jump_addr = none
  stack_dec : st.scope_open_addrs.Pairwise (fun x y => y < x)
  open_match : ∀ (i : Nat) (t : Token) (j : Nat),
    st.opcode_tokens[i]? = some t → t.opcode = '[' → t.jump_addr = some j →
    i < j ∧ ∃ u : Token, st.opcode_tokens[j]? = some u ∧ u.opcode = ']' ∧
      u.jump_addr = some i
  close_match : ∀ (j : Nat) (u : Token),
    st.opcode_tokens[j]? = some u → u.opcode = ']' →
    ∃ i : Nat, u.jump_addr = some i ∧ i < j ∧ ∃ t : Token,
      st.opcode_tokens[i]? = some t ∧ t.opcode = '[' ∧ t.jump_addr = some j
  open_pending : ∀ (i : Nat) (t : Token),
    st.opcode_tokens[i]? = some t → t.opcode = '[' →
    t.jump_addr = none → i ∈ st.scope_open_addrs
  stack_sep : ∀ a ∈ st.scope_open_addrs, ∀ (i : Nat) (t : Token) (j : Nat),
    st.opcode_tokens[i]? = some t → t.opcode = '[' → t.jump_addr = some j →
    j < a ∨ a < i
  noncross : ∀ (i₁ : Nat) (t₁ : Token) (j₁ i₂ : Nat) (t₂ : Token) (j₂ : Nat),
    st.opcode_tokens[i₁]? = some t₁ → t₁.opcode = '[' → t₁.jump_addr = some j₁ →
    st.opcode_tokens[i₂]? = some t₂ → t₂.opcode = '[' → t₂.jump_addr = some j₂ →
    i₁ < i₂ → j₁ < i₂ ∨ j₂ < j₁

/-! Concrete states used by the example-level theorems. -/

/-- An output instruction from source line 1. -/
def outTok : Token := ⟨'.', none, 1⟩

/-- A state whose every cell holds 128, about to execute index 0. -/
def s128 : ExecState := ⟨0, 0, fun _ => 128, [], []⟩

/-! ## Executor theorems -/

/-- C2: on a resolved bracket token, a loop-open with the current cell
0 sets the instruction pointer to its jump target plus 1, and otherwise
increments it; a loop-close with the current cell nonzero sets the
instruction pointer to its jump target plus 1, and otherwise increments
it; neither touches the tape, the data pointer, the output, or the
input (the post-state differs from `s` only in `inst_ptr`). -/
theorem loop_jump_semantics (strict : Bool) (t : Token) (s : ExecState) (j : Nat)
    (hj : t.jump_addr = some j) :
    (t.opcode = '[' →
      (s.data_cells s.data_ptr = 0 →
        step strict t s = .ok { s with inst_ptr := j + 1 }) ∧
      (s.data_cells s.data_ptr ≠ 0 →
        step strict t s = .ok { s with inst_ptr := s.inst_ptr + 1 })) ∧
    (t.opcode = ']' →
      (s.data_cells s.data_ptr ≠ 0 →
        step strict t s = .ok { s with inst_ptr := j + 1 }) ∧
      (s.data_cells s.data_ptr = 0 →
        step strict t s = .ok { s with inst_ptr := s.inst_ptr + 1 })) := by
  constructor <;> intro ho <;> constructor <;> intro hc <;> simp [step, ho, hj, hc]

/-- Witness for C2: a loop-open over a nonzero cell falls through to
the next instruction. -/
theorem loop_jump_semantics_witness :
    step false ⟨'[', some 5, 1⟩ s128 = .ok { s128 with inst_ptr := s128.inst_ptr + 1 } :=
  ((loop_jump_semantics false ⟨'[', some 5, 1⟩ s128 5 rfl).1 rfl).2 (by decide)

/-- C3: with `strict = false` every boundary condition wraps — move
left at pointer 0 lands on `data_size = 32767`, move right at 32767
lands on 0, incrementing 255 gives 0, decrementing 0 gives 255 — cell
arithmetic is mod 256 and pointer movement mod 32768, and none of the
four instructions ever faults. -/
theorem permissive_wraps (t : Token) (s : ExecState) :
    (t.opcode = '<' → s.data_ptr = 0 →
      step false t s = .ok { s with data_ptr := data_size, inst_ptr := s.inst_ptr + 1 }) ∧
    (t.opcode = '>' → s.data_ptr = data_size →
      step false t s = .ok { s with data_ptr := 0, inst_ptr := s.inst_ptr + 1 }) ∧
    (t.opcode = '+' → s.data_cells s.data_ptr = 255 →
      step false t s = .ok { s with
        data_cells := upd s.data_cells s.data_ptr 0, inst_ptr := s.inst_ptr + 1 }) ∧
    (t.opcode = '-' → s.data_cells s.data_ptr = 0 →
      step false t s = .ok { s with
        data_cells := upd s.data_cells s.data_ptr 255, inst_ptr := s.inst_ptr + 1 }) ∧
    (t.opcode = '+' →
      step false t s = .ok { s with
        data_cells := upd s.data_cells s.data_ptr ((s.data_cells s.data_ptr + 1) % 256),
        inst_ptr := s.inst_ptr + 1 }) ∧
    (t.opcode = '-' →
      step false t s = .ok { s with
        data_cells := upd s.data_cells s.data_ptr ((s.data_cells s.data_ptr + 255) % 256),
        inst_ptr := s.inst_ptr + 1 }) ∧
    (t.opcode = '<' → s.data_ptr ≤ data_size → ∃ s',
      step false t s = .ok s' ∧
        s'.data_ptr = (s.data_ptr + data_size) % (data_size + 1)) ∧
    (t.opcode = '>' → s.data_ptr ≤ data_size → ∃ s',
      step false t s = .ok s' ∧ s'.data_ptr = (s.data_ptr + 1) % (data_size + 1)) ∧
    (t.opcode ∈ ['<', '>', '+', '-'] → ∃ s', step false t s = .ok s') := by
  refine ⟨fun ho hp => ?_, fun ho hp => ?_, fun ho hc => ?_, fun ho hc => ?_,
    fun ho => ?_, fun ho => ?_, fun ho hle => ?_, fun ho hle => ?_, fun hm => ?_⟩
  · simp [step, ho, hp]
  · simp [step, ho, hp, data_size]
  · simp [step, ho, hc]
  · simp [step, ho, hc]
  · simp [step, ho]
  · simp [step, ho]
  · by_cases h0 : s.data_ptr = 0
    · refine ⟨{ s with data_ptr := data_size, inst_ptr := s.inst_ptr + 1 },
        by simp [step, ho, h0], ?_⟩
      show data_size = (s.data_ptr + data_size) % (data_size + 1)
      simp only [data_size, h0]
    · refine ⟨{ s with data_ptr := s.data_ptr - 1, inst_ptr := s.inst_ptr + 1 },
        by simp [step, ho, Nat.pos_of_ne_zero h0], ?_⟩
      show s.data_ptr - 1 = (s.data_ptr + data_size) % (data_size + 1)
      simp only [data_size] at hle ⊢
      omega
  · by_cases hlt : s.data_ptr < data_size
    · refine ⟨{ s with data_ptr := s.data_ptr + 1, inst_ptr := s.inst_ptr + 1 },
        by simp [step, ho, hlt], ?_⟩
      show s.data_ptr + 1 = (s.data_ptr + 1) % (data_size + 1)
      simp only [data_size] at hlt ⊢
      omega
    · refine ⟨{ s with data_ptr := 0, inst_ptr := s.inst_ptr + 1 },
        by simp [step, ho, hlt], ?_⟩
      show 0 = (s.data_ptr + 1) % (data_size + 1)
      simp only [data_size] at hlt hle ⊢
      omega
  · simp only [List.mem_cons, List.not_mem_nil, or_false] at hm
    rcases hm with ho | ho | ho | ho
    · by_cases h0 : s.data_ptr > 0
      · exact ⟨{ s with data_ptr := s.data_ptr - 1, inst_ptr := s.inst_ptr + 1 },
          by simp [step, ho, h0]⟩
      · exact ⟨{ s with data_ptr := data_size, inst_ptr := s.inst_ptr + 1 },
          by simp [step, ho, h0]⟩
    · by_cases hlt : s.data_ptr < data_size
      · exact ⟨{ s with data_ptr := s.data_ptr + 1, inst_ptr := s.inst_ptr + 1 },
          by simp [step, ho, hlt]⟩
      · exact ⟨{ s with data_ptr := 0, inst_ptr := s.inst_ptr + 1 },
          by simp [step, ho, hlt]⟩
    · exact ⟨{ s with
          data_cells := upd s.data_cells s.data_ptr ((s.data_cells s.data_ptr + 1) % 256),
          inst_ptr := s.inst_ptr + 1 }, by simp [step, ho]⟩
    · exact ⟨{ s with
          data_cells := upd s.data_cells s.data_ptr ((s.data_cells s.data_ptr + 255) % 256),
          inst_ptr := s.inst_ptr + 1 }, by simp [step, ho]⟩

/-- Witness for C3: moving left from pointer 0 in permissive mode
wraps to cell 32767. -/
theorem permissive_wraps_witness :
    step false ⟨'<', none, 1⟩ (init_state []) =
      .ok { (init_state []) with
            data_ptr := data_size,
            inst_ptr := (init_state []).inst_ptr + 1 } :=
  (permissive_wraps ⟨'<', none, 1⟩ (init_state [])).1 rfl rfl

/-- C4: with `strict = true`, move-left at pointer 0 faults with
`pointerUnderflow`, move-right at pointer 32767 with `pointerOverflow`,
increment of a 255 cell with `cellOverflow`, decrement of a 0 cell with
`cellUnderflow`; each fault carries the offending instruction's source
line, and the run loop stops at once with that fault (no further
instruction executes, whatever fuel remains). -/
theorem strict_faults (tokens : List Token) (t : Token) (s : ExecState) (fuel : Nat)
    (hcur : tokens[s.inst_ptr]? = some t) :
    (t.opcode = '<' → s.data_ptr = 0 →
      step true t s = .fault (.pointerUnderflow t.line) s ∧
      run_fuel true tokens (fuel + 1) s = some (.fault (.pointerUnderflow t.line) s)) ∧
    (t.opcode = '>' → s.data_ptr = data_size →
      step true t s = .fault (.pointerOverflow t.line) s ∧
      run_fuel true tokens (fuel + 1) s = some (.fault (.pointerOverflow t.line) s)) ∧
    (t.opcode = '+' → s.data_cells s.data_ptr = 255 →
      step true t s = .fault (.cellOverflow t.line) s ∧
      run_fuel true tokens (fuel + 1) s = some (.fault (.cellOverflow t.line) s)) ∧
    (t.opcode = '-' → s.data_cells s.data_ptr = 0 →
      step true t s = .fault (.cellUnderflow t.line) s ∧
      run_fuel true tokens (fuel + 1) s = some (.fault (.cellUnderflow t.line) s)) := by
  refine ⟨fun ho hb => ?_, fun ho hb => ?_, fun ho hb => ?_, fun ho hb => ?_⟩
  · have hstep : step true t s = .fault (.pointerUnderflow t.line) s := by
      simp [step, ho, hb]
    exact ⟨hstep, by simp [run_fuel, hcur, hstep]⟩
  · have hstep : step true t s = .fault (.pointerOverflow t.line) s := by
      simp [step, ho, hb]
    exact ⟨hstep, by simp [run_fuel, hcur, hstep]⟩
  · have hstep : step true t s = .fault (.cellOverflow t.line) s := by
      simp [step, ho, hb]
    exact ⟨hstep, by simp [run_fuel, hcur, hstep]⟩
  · have hstep : step true t s = .fault (.cellUnderflow t.line) s := by
      simp [step, ho, hb]
    exact ⟨hstep, by simp [run_fuel, hcur, hstep]⟩

/-- Witness for C4: end-to-end scenario D — the program consisting of a
single decrement run in strict mode halts at once with `cellUnderflow`
on line 4's token. -/
theorem strict_faults_witness :
    step true ⟨'-', none, 4⟩ (init_state []) =
      .fault (.cellUnderflow 4) (init_state []) ∧
    run_fuel true [⟨'-', none, 4⟩] 1 (init_state []) =
      some (.fault (.cellUnderflow 4) (init_state [])) :=
  (strict_faults [⟨'-', none, 4⟩] ⟨'-', none, 4⟩ (init_state []) 0 rfl).2.2.2 rfl rfl

/-- Counterexample to C6: with the current cell at 128, one output
instruction appends the two bytes 194, 128 (the UTF-8 encoding that
`print!("{}", 128u8 as char)` emits), not the single byte 128. -/
theorem output_two_bytes_at_128 :
    step false outTok s128 = .ok { s128 with inst_ptr := 1, output := [194, 128] } ∧
    [194, 128] ≠ [s128.data_cells s128.data_ptr] := by
  exact ⟨rfl, by decide⟩

/-- C6 as amended: an output instruction appends the UTF-8 encoding of
the current cell's value to the output — exactly that byte for values
below 128, and the two bytes `192 + v / 64, 128 + v % 64` for values
from 128 to 255 — flushes immediately (the bytes are visible in the
output stream as soon as the step completes), and leaves the tape, the
data pointer and the pending input unchanged. -/
theorem output_semantics (strict : Bool) (t : Token) (s : ExecState)
    (ht : t.opcode = '.') :
    step strict t s = .ok { s with
      output := s.output ++ utf8_bytes (s.data_cells s.data_ptr),
      inst_ptr := s.inst_ptr + 1 } ∧
    (s.data_cells s.data_ptr < 128 →
      utf8_bytes (s.data_cells s.data_ptr) = [s.data_cells s.data_ptr]) ∧
    (128 ≤ s.data_cells s.data_ptr →
      utf8_bytes (s.data_cells s.data_ptr) =
        [192 + s.data_cells s.data_ptr / 64, 128 + s.data_cells s.data_ptr % 64]) := by
  refine ⟨by simp [step, ht], fun h => by simp [utf8_bytes, h], fun h => ?_⟩
  have h' : ¬ s.data_cells s.data_ptr < 128 := by omega
  simp [utf8_bytes, h']

/-- Witness for the amended C6 at an output token over a cell holding
the byte 65. -/
theorem output_semantics_witness :
    step false ⟨'.', none, 2⟩ (init_state []) = .ok { (init_state []) with
      output := (init_state []).output ++
        utf8_bytes ((init_state []).data_cells (init_state []).data_ptr),
      inst_ptr := (init_state []).inst_ptr + 1 } :=
  (output_semantics false ⟨'.', none, 2⟩ (init_state []) rfl).1

/-- C7: an input instruction consumes exactly one pending byte and, on
success, stores exactly that byte in the current cell, leaving every
other cell, the data pointer and the output unchanged; with no byte
available it faults with `inputFailure` carrying the instruction's
source line, leaving the state as it was (no sentinel value is
written). -/
theorem input_semantics (strict : Bool) (t : Token) (s : ExecState)
    (ht : t.opcode = ',') :
    (∀ b rest, s.input = b :: rest → b ≤ 255 →
      step strict t s = .ok { s with
        data_cells := upd s.data_cells s.data_ptr b,
        input := rest,
        inst_ptr := s.inst_ptr + 1 } ∧
      (∀ i, i ≠ s.data_ptr → upd s.data_cells s.data_ptr b i = s.data_cells i)) ∧
    (s.input = [] → step strict t s = .fault (.inputFailure t.line) s) := by
  refine ⟨fun b rest hin hb => ⟨?_, fun i hi => by simp [upd, hi]⟩,
    fun hin => by simp [step, ht, hin]⟩
  have hb' : b % 256 = b := Nat.mod_eq_of_lt (by omega)
  simp [step, ht, hin, hb']

/-- Witness for C7: end-to-end scenario B's read — input byte 65 is
stored in cell 0. -/
theorem input_semantics_witness :
    step false ⟨',', none, 1⟩ (init_state [65]) = .ok { (init_state [65]) with
      data_cells := upd (init_state [65]).data_cells (init_state [65]).data_ptr 65,
      input := [],
      inst_ptr := (init_state [65]).inst_ptr + 1 } :=
  ((input_semantics false ⟨',', none, 1⟩ (init_state [65]) rfl).1 65 [] rfl
    (by decide)).1

/-- C10: whenever a step panics (in particular every strict-mode
boundary fault), the interpreter state at the moment of the panic is
exactly the state the instruction started from: no cell, pointer or
instruction-pointer mutation has happened (the failing step is atomic). -/
theorem fault_atomic (strict : Bool) (t : Token) (s : ExecState) (f : Fault)
    (s' : ExecState) (h : step strict t s = .fault f s') : s' = s := by
  unfold step at h
  repeat' split at h
  all_goals
    first
      | (injection h with h₁ h₂; exact h₂.symm)
      | exact StepResult.noConfusion h

/-- Witness for C10: the strict-mode pointer underflow at line 7 panics
with the initial state intact. -/
theorem fault_atomic_witness : init_state [] = init_state [] :=
  fault_atomic true ⟨'<', none, 7⟩ (init_state []) (.pointerUnderflow 7)
    (init_state []) rfl

/-! ## Tokenizer step lemmas -/

/-- Unfolding: a loop-open emits a token and pushes its index. -/
theorem tokenizeLine_cons_open (ln : Nat) (rest : List Char) (st : TkState) :
    tokenizeLine ln ('[' :: rest) st = tokenizeLine ln rest
      { st with
        opcode_tokens := st.opcode_tokens ++ [⟨'[', none, ln⟩],
        scope_open_addrs := st.opcode_tokens.length :: st.scope_open_addrs } := by
  simp [tokenizeLine, opcode_chars]

/-- Unfolding: a loop-close with an empty scope stack aborts, naming
the current line. -/
theorem tokenizeLine_cons_close_nil (ln : Nat) (rest : List Char) (st : TkState)
    (h : st.scope_open_addrs = []) :
    tokenizeLine ln (']' :: rest) st = .error (.unmatchedClose ln) := by
  simp [tokenizeLine, opcode_chars, h]

/-- Unfolding: a loop-close pops the top pending open and links the
pair mutually. -/
theorem tokenizeLine_cons_close (ln : Nat) (rest : List Char) (st : TkState)
    (a : Nat) (sk : List Nat) (h : st.scope_open_addrs = a :: sk) :
    tokenizeLine ln (']' :: rest) st = tokenizeLine ln rest
      { st with
        opcode_tokens := setJumpAt (st.opcode_tokens ++ [⟨']', some a, ln⟩]) a
          st.opcode_tokens.length,
        scope_open_addrs := sk } := by
  simp [tokenizeLine, opcode_chars, h]

/-- Unfolding: a non-bracket opcode emits its token. -/
theorem tokenizeLine_cons_plain (ln : Nat) (c : Char) (rest : List Char)
    (st : TkState) (hc : c ∈ opcode_chars) (h1 : c ≠ '[') (h2 : c ≠ ']') :
    tokenizeLine ln (c :: rest) st = tokenizeLine ln rest
      { st with opcode_tokens := st.opcode_tokens ++ [⟨c, none, ln⟩] } := by
  simp [tokenizeLine, hc, h1, h2]

/-- Unfolding: a comment character abandons the rest of the line. -/
theorem tokenizeLine_cons_comment (ln : Nat) (c : Char) (rest : List Char)
    (st : TkState) (hc : c ∉ opcode_chars) (hcm : c ∈ comment_tokens) :
    tokenizeLine ln (c :: rest) st = .ok st := by
  simp [tokenizeLine, hc, hcm]

/-- Unfolding: whitespace is skipped silently. -/
theorem tokenizeLine_cons_ws (ln : Nat) (c : Char) (rest : List Char)
    (st : TkState) (hc : c ∉ opcode_chars) (hcm : c ∉ comment_tokens)
    (hw : rust_is_whitespace c = true) :
    tokenizeLine ln (c :: rest) st = tokenizeLine ln rest st := by
  simp [tokenizeLine, hc, hcm, hw]

/-- Unfolding: an unrecognized character is recorded as a warning and
skipped. -/
theorem tokenizeLine_cons_unknown (ln : Nat) (c : Char) (rest : List Char)
    (st : TkState) (hc : c ∉ opcode_chars) (hcm : c ∉ comment_tokens)
    (hw : rust_is_whitespace c = false) :
    tokenizeLine ln (c :: rest) st = tokenizeLine ln rest
      { st with warnings := st.warnings ++ [(ln, c)] } := by
  simp [tokenizeLine, hc, hcm, hw]

/-- Unfolding: a failing line aborts the whole scan. -/
theorem tokenizeGo_cons_error (ln : Nat) (l : List Char) (ls : List (List Char))
    (st : TkState) (e : TokError) (h : tokenizeLine ln l st = .error e) :
    tokenizeGo ln (l :: ls) st = .error e := by
  simp [tokenizeGo, h]

/-- Unfolding: a successful line hands its state to the next line. -/
theorem tokenizeGo_cons_ok (ln : Nat) (l : List Char) (ls : List (List Char))
    (st st' : TkState) (h : tokenizeLine ln l st = .ok st') :
    tokenizeGo ln (l :: ls) st = tokenizeGo (ln + 1) ls st' := by
  simp [tokenizeGo, h]

/-- The scan of one line is oblivious to previously accumulated
warnings: states agreeing on stream and stack produce `SameCode`
results. -/
theorem tokenizeLine_sameCode (ln : Nat) (cs : List Char) :
    ∀ st₁ st₂ : TkState, st₁.opcode_tokens = st₂.opcode_tokens →
    st₁.scope_open_addrs = st₂.scope_open_addrs →
    SameCode (tokenizeLine ln cs st₁) (tokenizeLine ln cs st₂) := by
  induction cs with
  | nil =>
    intro st₁ st₂ h1 h2
    exact ⟨h1, h2⟩
  | cons c rest ih =>
    intro st₁ st₂ h1 h2
    by_cases hc : c ∈ opcode_chars
    · by_cases hb : c = '['
      · subst hb
        rw [tokenizeLine_cons_open, tokenizeLine_cons_open]
        exact ih _ _ (by simp [h1]) (by simp [h1, h2])
      · by_cases hb2 : c = ']'
        · subst hb2
          rcases hsk : st₁.scope_open_addrs with _ | ⟨a, sk⟩
          · rw [tokenizeLine_cons_close_nil _ _ _ hsk,
              tokenizeLine_cons_close_nil _ _ _ (h2.symm.trans hsk)]
            rfl
          · rw [tokenizeLine_cons_close _ _ _ _ _ hsk,
              tokenizeLine_cons_close _ _ _ _ _ (h2.symm.trans hsk)]
            exact ih _ _ (by simp [h1]) rfl
        · rw [tokenizeLine_cons_plain _ _ _ _ hc hb hb2,
            tokenizeLine_cons_plain _ _ _ _ hc hb hb2]
          exact ih _ _ (by simp [h1]) h2
    · by_cases hcm : c ∈ comment_tokens
      · rw [tokenizeLine_cons_comment _ _ _ _ hc hcm,
          tokenizeLine_cons_comment _ _ _ _ hc hcm]
        exact ⟨h1, h2⟩
      · cases hw : rust_is_whitespace c
        · rw [tokenizeLine_cons_unknown _ _ _ _ hc hcm hw,
            tokenizeLine_cons_unknown _ _ _ _ hc hcm hw]
          exact ih _ _ h1 h2
        · rw [tokenizeLine_cons_ws _ _ _ _ hc hcm hw,
            tokenizeLine_cons_ws _ _ _ _ hc hcm hw]
          exact ih _ _ h1 h2

/-- Warning-obliviousness extended over all remaining lines. -/
theorem tokenizeGo_sameCode (lls : List (List Char)) :
    ∀ (ln : Nat) (st₁ st₂ : TkState), st₁.opcode_tokens = st₂.opcode_tokens →
    st₁.scope_open_addrs = st₂.scope_open_addrs →
    SameCode (tokenizeGo ln lls st₁) (tokenizeGo ln lls st₂) := by
  induction lls with
  | nil =>
    intro ln st₁ st₂ h1 h2
    exact ⟨h1, h2⟩
  | cons l ls ih =>
    intro ln st₁ st₂ h1 h2
    have h := tokenizeLine_sameCode ln l st₁ st₂ h1 h2
    rcases hr1 : tokenizeLine ln l st₁ with e₁ | r₁ <;>
      rcases hr2 : tokenizeLine ln l st₂ with e₂ | r₂ <;>
      rw [hr1, hr2] at h
    · rw [tokenizeGo_cons_error _ _ _ _ _ hr1, tokenizeGo_cons_error _ _ _ _ _ hr2]
      exact h
    · exact h.elim
    · exact h.elim
    · rw [tokenizeGo_cons_ok _ _ _ _ _ hr1, tokenizeGo_cons_ok _ _ _ _ _ hr2]
      exact ih _ _ _ h.1 h.2

/-- Deleting one unrecognized character from a line leaves the stream
and stack of the line scan unchanged (only the warnings differ). -/
theorem tokenizeLine_insert (ln : Nat) (c : Char) (hc : c ∉ opcode_chars)
    (hcm : c ∉ comment_tokens) (hw : rust_is_whitespace c = false) :
    ∀ (pre suf : List Char) (st : TkState),
    SameCode (tokenizeLine ln (pre ++ c :: suf) st)
      (tokenizeLine ln (pre ++ suf) st) := by
  intro pre
  induction pre with
  | nil =>
    intro suf st
    rw [List.nil_append, List.nil_append,
      tokenizeLine_cons_unknown _ _ _ _ hc hcm hw]
    exact tokenizeLine_sameCode ln suf _ _ rfl rfl
  | cons p pre ih =>
    intro suf st
    rw [List.cons_append, List.cons_append]
    by_cases hp : p ∈ opcode_chars
    · by_cases hb : p = '['
      · subst hb
        rw [tokenizeLine_cons_open, tokenizeLine_cons_open]
        exact ih _ _
      · by_cases hb2 : p = ']'
        · subst hb2
          rcases hsk : st.scope_open_addrs with _ | ⟨a, sk⟩
          · rw [tokenizeLine_cons_close_nil _ _ _ hsk,
              tokenizeLine_cons_close_nil _ _ _ hsk]
            rfl
          · rw [tokenizeLine_cons_close _ _ _ _ _ hsk,
              tokenizeLine_cons_close _ _ _ _ _ hsk]
            exact ih _ _
        · rw [tokenizeLine_cons_plain _ _ _ _ hp hb hb2,
            tokenizeLine_cons_plain _ _ _ _ hp hb hb2]
          exact ih _ _
    · by_cases hpm : p ∈ comment_tokens
      · rw [tokenizeLine_cons_comment _ _ _ _ hp hpm,
          tokenizeLine_cons_comment _ _ _ _ hp hpm]
        exact ⟨rfl, rfl⟩
      · cases hpw : rust_is_whitespace p
        · rw [tokenizeLine_cons_unknown _ _ _ _ hp hpm hpw,
            tokenizeLine_cons_unknown _ _ _ _ hp hpm hpw]
          exact ih _ _
        · rw [tokenizeLine_cons_ws _ _ _ _ hp hpm hpw,
            tokenizeLine_cons_ws _ _ _ _ hp hpm hpw]
          exact ih _ _

/-- Deleting one unrecognized character anywhere in the program leaves
the whole scan `SameCode`. -/
theorem tokenizeGo_insert (c : Char) (hc : c ∉ opcode_chars)
    (hcm : c ∉ comment_tokens) (hw : rust_is_whitespace c = false) :
    ∀ (pres : List (List Char)) (lpre lsuf : List Char)
      (posts : List (List Char)) (ln : Nat) (st : TkState),
    SameCode (tokenizeGo ln (pres ++ (lpre ++ c :: lsuf) :: posts) st)
      (tokenizeGo ln (pres ++ (lpre ++ lsuf) :: posts) st) := by
  intro pres
  induction pres with
  | nil =>
    intro lpre lsuf posts ln st
    rw [List.nil_append, List.nil_append]
    have h := tokenizeLine_insert ln c hc hcm hw lpre lsuf st
    rcases hr1 : tokenizeLine ln (lpre ++ c :: lsuf) st with e₁ | r₁ <;>
      rcases hr2 : tokenizeLine ln (lpre ++ lsuf) st with e₂ | r₂ <;>
      rw [hr1, hr2] at h
    · rw [tokenizeGo_cons_error _ _ _ _ _ hr1, tokenizeGo_cons_error _ _ _ _ _ hr2]
      exact h
    · exact h.elim
    · exact h.elim
    · rw [tokenizeGo_cons_ok _ _ _ _ _ hr1, tokenizeGo_cons_ok _ _ _ _ _ hr2]
      exact tokenizeGo_sameCode posts _ _ _ h.1 h.2
  | cons l ls ih =>
    intro lpre lsuf posts ln st
    rw [List.cons_append, List.cons_append]
    rcases hr : tokenizeLine ln l st with e | r
    · rw [tokenizeGo_cons_error _ _ _ _ _ hr, tokenizeGo_cons_error _ _ _ _ _ hr]
      rfl
    · rw [tokenizeGo_cons_ok _ _ _ _ _ hr, tokenizeGo_cons_ok _ _ _ _ _ hr]
      exact ih _ _ _ _ _

/-- C8: a comment character makes the rest of the line emit nothing
(in particular the spec's example line emits exactly 3 increments);
whitespace is skipped with no warning and no state change; any other
unrecognized character is recorded as a non-fatal warning and skipped;
and deleting such a character from a program leaves the assembled
instruction stream (or the structural error) identical. -/
theorem char_classification :
    (∀ (ln : Nat) (cc : Char) (rest : List Char) (st : TkState),
      cc ∈ comment_tokens → tokenizeLine ln (cc :: rest) st = .ok st) ∧
    (tokenize_lines ["+++ # this is ignored +++"] =
      .ok [⟨'+', none, 1⟩, ⟨'+', none, 1⟩, ⟨'+', none, 1⟩]) ∧
    (∀ (ln : Nat) (c : Char) (rest : List Char) (st : TkState),
      c ∉ opcode_chars → c ∉ comment_tokens → rust_is_whitespace c = true →
      tokenizeLine ln (c :: rest) st = tokenizeLine ln rest st) ∧
    (∀ (ln : Nat) (c : Char) (rest : List Char) (st : TkState),
      c ∉ opcode_chars → c ∉ comment_tokens → rust_is_whitespace c = false →
      tokenizeLine ln (c :: rest) st =
        tokenizeLine ln rest { st with warnings := st.warnings ++ [(ln, c)] }) ∧
    (∀ c : Char, c ∉ opcode_chars → c ∉ comment_tokens →
      rust_is_whitespace c = false →
      ∀ (pres : List (List Char)) (lpre lsuf : List Char)
        (posts : List (List Char)),
        tokenize_chars (pres ++ (lpre ++ c :: lsuf) :: posts) =
          tokenize_chars (pres ++ (lpre ++ lsuf) :: posts)) := by
  refine ⟨?_, by rfl, ?_, ?_, ?_⟩
  · intro ln cc rest st hcm
    have hc : cc ∉ opcode_chars := by
      have h := hcm
      simp only [comment_tokens, List.mem_cons, List.not_mem_nil, or_false] at h
      rcases h with h | h | h <;> subst h <;> decide
    exact tokenizeLine_cons_comment _ _ _ _ hc hcm
  · intro ln c rest st hc hcm hw
    exact tokenizeLine_cons_ws _ _ _ _ hc hcm hw
  · intro ln c rest st hc hcm hw
    exact tokenizeLine_cons_unknown _ _ _ _ hc hcm hw
  · intro c h1 h2 h3 pres lpre lsuf posts
    have h := tokenizeGo_insert c h1 h2 h3 pres lpre lsuf posts 1 ⟨[], [], []⟩
    rcases hr1 : tokenizeGo 1 (pres ++ (lpre ++ c :: lsuf) :: posts) ⟨[], [], []⟩
        with e₁ | r₁ <;>
      rcases hr2 : tokenizeGo 1 (pres ++ (lpre ++ lsuf) :: posts) ⟨[], [], []⟩
        with e₂ | r₂ <;>
      rw [hr1, hr2] at h
    · simp only [tokenize_chars, hr1, hr2]
      rw [h]
    · exact h.elim
    · exact h.elim
    · simp only [tokenize_chars, hr1, hr2]
      rw [h.1, h.2]

/-- Witness for C8: a lone comment character yields an unchanged state. -/
theorem char_classification_witness :
    tokenizeLine 1 ['#'] ⟨[], [], []⟩ = .ok ⟨[], [], []⟩ :=
  char_classification.1 1 '#' [] ⟨[], [], []⟩ (by decide)

/-! ## Bracket balance and the two structural errors -/

/-- The bracket-depth scan distributes over append. -/
theorem balScan_append (a b : List Char) : ∀ d : Nat, balScan (a ++ b) d =
    match balScan a d with
    | none => none
    | some d' => balScan b d' := by
  induction a with
  | nil => intro d; simp [balScan]
  | cons c cs ih =>
    intro d
    by_cases h1 : c = '['
    · subst h1; simp [balScan, ih]
    · by_cases h2 : c = ']'
      · subst h2
        rcases d with _ | d
        · simp [balScan]
        · simp [balScan, ih]
      · simp [balScan, h1, h2, ih]

/-- One line of the scan, against the bracket-depth of its emitted
code: the scan fails with `unmatchedClose` on this line exactly as the
depth scan underflows, and otherwise ends with a stack whose height is
the final depth. -/
theorem tokenizeLine_balance (ln : Nat) (cs : List Char) :
    ∀ st : TkState,
    (balScan (lineCode cs) st.scope_open_addrs.length = none →
      tokenizeLine ln cs st = .error (.unmatchedClose ln)) ∧
    (∀ d, balScan (lineCode cs) st.scope_open_addrs.length = some d →
      ∃ st', tokenizeLine ln cs st = .ok st' ∧
        st'.scope_open_addrs.length = d) := by
  induction cs with
  | nil =>
    intro st
    constructor
    · intro h; simp [lineCode, balScan] at h
    · intro d h
      simp only [lineCode, balScan, Option.some.injEq] at h
      exact ⟨st, rfl, h⟩
  | cons c rest ih =>
    intro st
    by_cases hc : c ∈ opcode_chars
    · by_cases hb : c = '['
      · subst hb
        have hl : lineCode ('[' :: rest) = '[' :: lineCode rest := by
          simp [lineCode, opcode_chars]
        have hbs : balScan ('[' :: lineCode rest) st.scope_open_addrs.length =
            balScan (lineCode rest) (st.scope_open_addrs.length + 1) := by
          simp [balScan]
        rw [tokenizeLine_cons_open, hl, hbs]
        constructor
        · intro h
          exact (ih _).1 (by simpa using h)
        · intro d h
          exact (ih _).2 d (by simpa using h)
      · by_cases hb2 : c = ']'
        · subst hb2
          have hl : lineCode (']' :: rest) = ']' :: lineCode rest := by
            simp [lineCode, opcode_chars]
          rcases hsk : st.scope_open_addrs with _ | ⟨a, sk⟩
          · rw [tokenizeLine_cons_close_nil _ _ _ hsk, hl]
            constructor
            · intro _; rfl
            · intro d h
              simp [balScan] at h
          · rw [tokenizeLine_cons_close _ _ _ _ _ hsk, hl]
            have hbs : balScan (']' :: lineCode rest) (a :: sk).length =
                balScan (lineCode rest) sk.length := by
              simp [balScan]
            rw [hbs]
            constructor
            · intro h
              exact (ih _).1 (by simpa using h)
            · intro d h
              exact (ih _).2 d (by simpa using h)
        · have hl : lineCode (c :: rest) = c :: lineCode rest := by
            simp [lineCode, hc]
          have hbs : balScan (c :: lineCode rest) st.scope_open_addrs.length =
              balScan (lineCode rest) st.scope_open_addrs.length := by
            simp [balScan, hb, hb2]
          rw [tokenizeLine_cons_plain _ _ _ _ hc hb hb2, hl, hbs]
          constructor
          · intro h
            exact (ih _).1 (by simpa using h)
          · intro d h
            exact (ih _).2 d (by simpa using h)
    · by_cases hcm : c ∈ comment_tokens
      · have hl : lineCode (c :: rest) = [] := by simp [lineCode, hc, hcm]
        rw [tokenizeLine_cons_comment _ _ _ _ hc hcm, hl]
        constructor
        · intro h; simp [balScan] at h
        · intro d h
          simp only [balScan, Option.some.injEq] at h
          exact ⟨st, rfl, h⟩
      · have hl : lineCode (c :: rest) = lineCode rest := by
          simp [lineCode, hc, hcm]
        cases hw : rust_is_whitespace c
        · rw [tokenizeLine_cons_unknown _ _ _ _ hc hcm hw, hl]
          constructor
          · intro h
            exact (ih _).1 (by simpa using h)
          · intro d h
            exact (ih _).2 d (by simpa using h)
        · rw [tokenizeLine_cons_ws _ _ _ _ hc hcm hw, hl]
          constructor
          · intro h
            exact (ih _).1 h
          · intro d h
            exact (ih _).2 d h

/-- The whole scan, against the per-line bracket depth: it fails with
`unmatchedClose` naming exactly the first underflowing line, and with
no underflow it ends with stack height equal to the total depth. -/
theorem tokenizeGo_balance (lls : List (List Char)) :
    ∀ (ln : Nat) (st : TkState),
    (∀ k, underflowLine ln lls st.scope_open_addrs.length = some k →
      tokenizeGo ln lls st = .error (.unmatchedClose k)) ∧
    (∀ d, underflowLine ln lls st.scope_open_addrs.length = none →
      balScan (codeJoin lls) st.scope_open_addrs.length = some d →
      ∃ st', tokenizeGo ln lls st = .ok st' ∧
        st'.scope_open_addrs.length = d) := by
  induction lls with
  | nil =>
    intro ln st
    constructor
    · intro k h; simp [underflowLine] at h
    · intro d _ hb
      simp only [codeJoin, List.map_nil, List.flatten_nil, balScan,
        Option.some.injEq] at hb
      exact ⟨st, rfl, hb⟩
  | cons l ls ih =>
    intro ln st
    have hcj : codeJoin (l :: ls) = lineCode l ++ codeJoin ls := by
      simp [codeJoin]
    constructor
    · intro k h
      rcases hbl : balScan (lineCode l) st.scope_open_addrs.length with _ | d'
      · have hk : k = ln := by
          simp [underflowLine, hbl] at h
          exact h.symm
        subst hk
        have herr := (tokenizeLine_balance k l st).1 hbl
        exact tokenizeGo_cons_error _ _ _ _ _ herr
      · have h' : underflowLine (ln + 1) ls d' = some k := by
          simpa [underflowLine, hbl] using h
        obtain ⟨st', hok, hlen⟩ := (tokenizeLine_balance ln l st).2 d' hbl
        rw [tokenizeGo_cons_ok _ _ _ _ _ hok]
        exact (ih (ln + 1) st').1 k (by rw [hlen]; exact h')
    · intro d h hb
      rcases hbl : balScan (lineCode l) st.scope_open_addrs.length with _ | d'
      · simp [underflowLine, hbl] at h
      · have h' : underflowLine (ln + 1) ls d' = none := by
          simpa [underflowLine, hbl] using h
        have hb' : balScan (codeJoin ls) d' = some d := by
          rw [hcj, balScan_append, hbl] at hb
          exact hb
        obtain ⟨st', hok, hlen⟩ := (tokenizeLine_balance ln l st).2 d' hbl
        rw [tokenizeGo_cons_ok _ _ _ _ _ hok]
        exact (ih (ln + 1) st').2 d (by rw [hlen]; exact h') (by rw [hlen]; exact hb')

/-- Counterexample to C5: the one-line program consisting of a single
loop-open fails assembly with the unmatched-open assertion, whose
failure message names no source line at all (unlike the unmatched-close
panic, which does). -/
theorem unmatched_open_line_not_named :
    tokenize_lines ["["] = .error .unmatchedOpen ∧
    TokError.namedLine .unmatchedOpen = none ∧
    ∀ k : Nat, TokError.namedLine .unmatchedOpen ≠ some k := by
  refine ⟨by rfl, rfl, fun k => by simp [TokError.namedLine]⟩

/-- C5 as amended: a loop-close with no pending open aborts assembly
with a fatal unmatched-close error naming exactly the line of that
close (the first underflowing line); a pending loop-open left at end of
input aborts assembly with the fatal unmatched-open assertion, which
names no line; and in either case the interpreter pipeline propagates
the error, so no execution is attempted. -/
theorem unmatched_bracket_errors :
    (∀ (lines : List String) (k : Nat),
      underflowLine 1 (lines.map String.toList) 0 = some k →
      tokenize_lines lines = .error (.unmatchedClose k) ∧
      (TokError.unmatchedClose k).namedLine = some k) ∧
    (∀ (lines : List String) (d : Nat),
      underflowLine 1 (lines.map String.toList) 0 = none →
      balScan (progCode lines) 0 = some (d + 1) →
      tokenize_lines lines = .error .unmatchedOpen ∧
      TokError.namedLine .unmatchedOpen = none) ∧
    (∀ (lines : List String) (strict : Bool) (input : List Nat) (fuel : Nat)
      (e : TokError), tokenize_lines lines = .error e →
      interp lines strict input fuel = .error e) := by
  refine ⟨fun lines k h => ?_, fun lines d h hb => ?_,
    fun lines strict input fuel e he => ?_⟩
  · have herr := (tokenizeGo_balance (lines.map String.toList) 1 ⟨[], [], []⟩).1 k h
    constructor
    · unfold tokenize_lines tokenize_chars
      simp only [herr]
    · rfl
  · obtain ⟨st', hok, hlen⟩ :=
      (tokenizeGo_balance (lines.map String.toList) 1 ⟨[], [], []⟩).2 (d + 1) h hb
    constructor
    · have hne : st'.scope_open_addrs ≠ [] := by
        intro hnil
        rw [hnil] at hlen
        simp at hlen
      unfold tokenize_lines tokenize_chars
      simp only [hok]
      simp [hne]
    · rfl
  · unfold interp
    rw [he]
    rfl

/-- Witness for the amended C5: end-to-end scenario C — the program
consisting of a single close bracket fails with an unmatched-close
error naming line 1. -/
theorem unmatched_bracket_errors_witness :
    tokenize_lines ["]"] = .error (.unmatchedClose 1) ∧
    (TokError.unmatchedClose 1).namedLine = some 1 :=
  unmatched_bracket_errors.1 ["]"] 1 (by decide)

/-- C9: the initial state satisfies the executor invariant (data
pointer on the tape, all cells bytes, instruction pointer within
`[0, len]`); on a well-formed stream every successful step preserves
it; and whenever the instruction pointer reaches or exceeds the stream
length the run loop halts normally at once with the current state. -/
theorem exec_invariants (tokens : List Token) (strict : Bool) (input : List Nat) :
    ExecInv tokens (init_state input) ∧
    (∀ (s : ExecState) (t : Token) (s' : ExecState), WF tokens → ExecInv tokens s →
      tokens[s.inst_ptr]? = some t → step strict t s = .ok s' →
      ExecInv tokens s') ∧
    (∀ (s : ExecState) (fuel : Nat), tokens.length ≤ s.inst_ptr →
      run_fuel strict tokens (fuel + 1) s = some (.ok s)) := by
  refine ⟨⟨by simp [init_state, data_size], fun i => by simp [init_state],
    by simp [init_state]⟩, ?_, ?_⟩
  · intro s t s' hwf hinv hcur hstep
    obtain ⟨hdp, hcells, _⟩ := hinv
    obtain ⟨hip, hget⟩ := List.getElem?_eq_some.mp hcur
    have htmem : t ∈ tokens := by
      rw [← hget]
      exact List.getElem_mem _
    by_cases h1 : t.opcode = '<'
    · by_cases hp : 0 < s.data_ptr
      · have he : step strict t s =
            .ok { s with data_ptr := s.data_ptr - 1, inst_ptr := s.inst_ptr + 1 } := by
          simp [step, h1, hp]
        rw [he] at hstep
        injection hstep with h₂
        subst h₂
        exact ⟨show s.data_ptr - 1 ≤ data_size by omega, hcells,
          show s.inst_ptr + 1 ≤ tokens.length by omega⟩
      · cases strict
        · have he : step false t s =
              .ok { s with data_ptr := data_size, inst_ptr := s.inst_ptr + 1 } := by
            simp [step, h1, hp]
          rw [he] at hstep
          injection hstep with h₂
          subst h₂
          exact ⟨show data_size ≤ data_size from Nat.le_refl _, hcells,
            show s.inst_ptr + 1 ≤ tokens.length by omega⟩
        · have he : step true t s = .fault (.pointerUnderflow t.line) s := by
            simp [step, h1, hp]
          rw [he] at hstep
          exact StepResult.noConfusion hstep
    · by_cases h2 : t.opcode = '>'
      · by_cases hp : s.data_ptr < data_size
        · have he : step strict t s =
              .ok { s with data_ptr := s.data_ptr + 1, inst_ptr := s.inst_ptr + 1 } := by
            simp [step, h2, hp]
          rw [he] at hstep
          injection hstep with h₂
          subst h₂
          exact ⟨show s.data_ptr + 1 ≤ data_size by omega, hcells,
            show s.inst_ptr + 1 ≤ tokens.length by omega⟩
        · cases strict
          · have he : step false t s =
                .ok { s with data_ptr := 0, inst_ptr := s.inst_ptr + 1 } := by
              simp [step, h2, hp]
            rw [he] at hstep
            injection hstep with h₂
            subst h₂
            exact ⟨show (0 : Nat) ≤ data_size from Nat.zero_le _, hcells,
              show s.inst_ptr + 1 ≤ tokens.length by omega⟩
          · have he : step true t s = .fault (.pointerOverflow t.line) s := by
              simp [step, h2, hp]
            rw [he] at hstep
            exact StepResult.noConfusion hstep
      · by_cases h3 : t.opcode = '+'
        · cases strict
          · have he : step false t s = .ok { s with
                data_cells := upd s.data_cells s.data_ptr
                  ((s.data_cells s.data_ptr + 1) % 256),
                inst_ptr := s.inst_ptr + 1 } := by
              simp [step, h3]
            rw [he] at hstep
            injection hstep with h₂
            subst h₂
            refine ⟨show s.data_ptr ≤ data_size from hdp, fun i => ?_,
              show s.inst_ptr + 1 ≤ tokens.length by omega⟩
            show upd s.data_cells s.data_ptr
              ((s.data_cells s.data_ptr + 1) % 256) i ≤ 255
            simp only [upd]
            split
            · omega
            · exact hcells i
          · by_cases h255 : s.data_cells s.data_ptr = 255
            · have he : step true t s = .fault (.cellOverflow t.line) s := by
                simp [step, h3, h255]
              rw [he] at hstep
              exact StepResult.noConfusion hstep
            · have he : step true t s = .ok { s with
                  data_cells := upd s.data_cells s.data_ptr
                    (s.data_cells s.data_ptr + 1),
                  inst_ptr := s.inst_ptr + 1 } := by
                simp [step, h3, h255]
              rw [he] at hstep
              injection hstep with h₂
              subst h₂
              refine ⟨show s.data_ptr ≤ data_size from hdp, fun i => ?_,
                show s.inst_ptr + 1 ≤ tokens.length by omega⟩
              show upd s.data_cells s.data_ptr (s.data_cells s.data_ptr + 1) i ≤ 255
              simp only [upd]
              split
              · have := hcells s.data_ptr
                omega
              · exact hcells i
        · by_cases h4 : t.opcode = '-'
          · cases strict
            · have he : step false t s = .ok { s with
                  data_cells := upd s.data_cells s.data_ptr
                    ((s.data_cells s.data_ptr + 255) % 256),
                  inst_ptr := s.inst_ptr + 1 } := by
                simp [step, h4]
              rw [he] at hstep
              injection hstep with h₂
              subst h₂
              refine ⟨show s.data_ptr ≤ data_size from hdp, fun i => ?_,
                show s.inst_ptr + 1 ≤ tokens.length by omega⟩
              show upd s.data_cells s.data_ptr
                ((s.data_cells s.data_ptr + 255) % 256) i ≤ 255
              simp only [upd]
              split
              · omega
              · exact hcells i
            · by_cases h0 : s.data_cells s.data_ptr = 0
              · have he : step true t s = .fault (.cellUnderflow t.line) s := by
                  simp [step, h4, h0]
                rw [he] at hstep
                exact StepResult.noConfusion hstep
              · have he : step true t s = .ok { s with
                    data_cells := upd s.data_cells s.data_ptr
                      (s.data_cells s.data_ptr - 1),
                    inst_ptr := s.inst_ptr + 1 } := by
                  simp [step, h4, h0]
                rw [he] at hstep
                injection hstep with h₂
                subst h₂
                refine ⟨show s.data_ptr ≤ data_size from hdp, fun i => ?_,
                  show s.inst_ptr + 1 ≤ tokens.length by omega⟩
                show upd s.data_cells s.data_ptr (s.data_cells s.data_ptr - 1) i ≤ 255
                simp only [upd]
                split
                · have := hcells s.data_ptr
                  omega
                · exact hcells i
          · by_cases h5 : t.opcode = '.'
            · have he : step strict t s = .ok { s with
                  output := s.output ++ utf8_bytes (s.data_cells s.data_ptr),
                  inst_ptr := s.inst_ptr + 1 } := by
                simp [step, h5]
              rw [he] at hstep
              injection hstep with h₂
              subst h₂
              exact ⟨show s.data_ptr ≤ data_size from hdp, hcells,
                show s.inst_ptr + 1 ≤ tokens.length by omega⟩
            · by_cases h6 : t.opcode = ','
              · rcases hin : s.input with _ | ⟨b, rest⟩
                · have he : step strict t s = .fault (.inputFailure t.line) s := by
                    simp [step, h6, hin]
                  rw [he] at hstep
                  exact StepResult.noConfusion hstep
                · have he : step strict t s = .ok { s with
                      data_cells := upd s.data_cells s.data_ptr (b % 256),
                      input := rest,
                      inst_ptr := s.inst_ptr + 1 } := by
                    simp [step, h6, hin]
                  rw [he] at hstep
                  injection hstep with h₂
                  subst h₂
                  refine ⟨show s.data_ptr ≤ data_size from hdp, fun i => ?_,
                    show s.inst_ptr + 1 ≤ tokens.length by omega⟩
                  show upd s.data_cells s.data_ptr (b % 256) i ≤ 255
                  simp only [upd]
                  split
                  · omega
                  · exact hcells i
              · by_cases h7 : t.opcode = '['
                · rcases hj : t.jump_addr with _ | j
                  · have he : step strict t s = .fault .unwrapNone s := by
                      simp [step, h7, hj]
                    rw [he] at hstep
                    exact StepResult.noConfusion hstep
                  · have hjlt : j < tokens.length := hwf t htmem j hj
                    by_cases hz : s.data_cells s.data_ptr = 0
                    · have he : step strict t s = .ok { s with inst_ptr := j + 1 } := by
                        simp [step, h7, hj, hz]
                      rw [he] at hstep
                      injection hstep with h₂
                      subst h₂
                      exact ⟨show s.data_ptr ≤ data_size from hdp, hcells,
                        show j + 1 ≤ tokens.length by omega⟩
                    · have he : step strict t s =
                          .ok { s with inst_ptr := s.inst_ptr + 1 } := by
                        simp [step, h7, hj, hz]
                      rw [he] at hstep
                      injection hstep with h₂
                      subst h₂
                      exact ⟨show s.data_ptr ≤ data_size from hdp, hcells,
                        show s.inst_ptr + 1 ≤ tokens.length by omega⟩
                · by_cases h8 : t.opcode = ']'
                  · rcases hj : t.jump_addr with _ | j
                    · have he : step strict t s = .fault .unwrapNone s := by
                        simp [step, h8, hj]
                      rw [he] at hstep
                      exact StepResult.noConfusion hstep
                    · have hjlt : j < tokens.length := hwf t htmem j hj
                      by_cases hz : s.data_cells s.data_ptr = 0
                      · have he : step strict t s =
                            .ok { s with inst_ptr := s.inst_ptr + 1 } := by
                          simp [step, h8, hj, hz]
                        rw [he] at hstep
                        injection hstep with h₂
                        subst h₂
                        exact ⟨show s.data_ptr ≤ data_size from hdp, hcells,
                          show s.inst_ptr + 1 ≤ tokens.length by omega⟩
                      · have he : step strict t s =
                            .ok { s with inst_ptr := j + 1 } := by
                          simp [step, h8, hj, hz]
                        rw [he] at hstep
                        injection hstep with h₂
                        subst h₂
                        exact ⟨show s.data_ptr ≤ data_size from hdp, hcells,
                          show j + 1 ≤ tokens.length by omega⟩
                  · have he : step strict t s =
                        .ok { s with inst_ptr := s.inst_ptr + 1 } := by
                      simp [step, h1, h2, h3, h4, h5, h6, h7, h8]
                    rw [he] at hstep
                    injection hstep with h₂
                    subst h₂
                    exact ⟨show s.data_ptr ≤ data_size from hdp, hcells,
                      show s.inst_ptr + 1 ≤ tokens.length by omega⟩
  · intro s fuel h
    have hn : tokens[s.inst_ptr]? = none := by
      rw [List.getElem?_eq_none_iff]
      exact h
    simp [run_fuel, hn]

/-- Witness for C9: one permissive increment step from the initial
state preserves the invariant. -/
theorem exec_invariants_witness :
    ExecInv [⟨'+', none, 1⟩] { (init_state []) with
      data_cells := upd (init_state []).data_cells 0 1, inst_ptr := 1 } :=
  (exec_invariants [⟨'+', none, 1⟩] false []).2.1 (init_state []) ⟨'+', none, 1⟩
    { (init_state []) with
      data_cells := upd (init_state []).data_cells 0 1, inst_ptr := 1 }
    (fun t ht j hj => by
      simp only [List.mem_singleton] at ht
      rw [ht] at hj
      cases hj)
    ⟨by decide, fun i => by simp [init_state], by decide⟩
    rfl rfl

/-! ## Bracket pairing: the tokenizer invariant -/

/-- Indexing into a one-element extension: either an old index or the
new final slot. -/
theorem getElem?_concat_cases {α : Type} {ts : List α} {x : α} {i : Nat} {t : α}
    (hget : (ts ++ [x])[i]? = some t) :
    (i < ts.length ∧ ts[i]? = some t) ∨ (i = ts.length ∧ t = x) := by
  rcases Nat.lt_or_ge i ts.length with hi | hi
  · exact Or.inl ⟨hi, by rwa [List.getElem?_append_left hi] at hget⟩
  · obtain ⟨hlt, _⟩ := List.getElem?_eq_some.mp hget
    simp only [List.length_append, List.length_singleton] at hlt
    have hieq : i = ts.length := by omega
    subst hieq
    rw [List.getElem?_concat_length] at hget
    injection hget with h
    exact Or.inr ⟨rfl, h.symm⟩

/-- `setJumpAt` keeps the length. -/
theorem setJumpAt_length (l : List Token) (a j : Nat) :
    (setJumpAt l a j).length = l.length := by
  induction l generalizing a with
  | nil => rfl
  | cons t ts ih =>
    cases a with
    | zero => simp [setJumpAt]
    | succ a => simp [setJumpAt, ih]

/-- `setJumpAt` leaves other slots alone. -/
theorem setJumpAt_getElem?_ne (l : List Token) (a j k : Nat) (h : k ≠ a) :
    (setJumpAt l a j)[k]? = l[k]? := by
  induction l generalizing a k with
  | nil => simp [setJumpAt]
  | cons t ts ih =>
    cases a with
    | zero =>
      cases k with
      | zero => exact absurd rfl h
      | succ k => simp [setJumpAt]
    | succ a =>
      cases k with
      | zero => simp [setJumpAt]
      | succ k =>
        simp only [setJumpAt, List.getElem?_cons_succ]
        exact ih a k (fun hk => h (by rw [hk]))

/-- `setJumpAt` overwrites exactly the addressed slot's jump target. -/
theorem setJumpAt_getElem?_eq (l : List Token) (a j : Nat) (t : Token)
    (h : l[a]? = some t) :
    (setJumpAt l a j)[a]? = some { t with jump_addr := some j } := by
  induction l generalizing a with
  | nil => simp at h
  | cons u ts ih =>
    cases a with
    | zero =>
      simp only [List.getElem?_cons_zero, Option.some.injEq] at h
      subst h
      simp [setJumpAt]
    | succ a =>
      simp only [List.getElem?_cons_succ] at h
      simp only [setJumpAt, List.getElem?_cons_succ]
      exact ih a h

/-- The invariant ignores the warnings component. -/
theorem TkInv.set_warnings {st : TkState} (h : TkInv st) (w : List (Nat × Char)) :
    TkInv { st with warnings := w } := by
  obtain ⟨a1, a2, a3, a4, a5, a6, a7, a8⟩ := h
  exact ⟨a1, a2, a3, a4, a5, a6, a7, a8⟩

/-- The invariant holds of the empty tokenizer state. -/
theorem TkInv_initial : TkInv ⟨[], [], []⟩ := by
  constructor
  · intro a ha; simp at ha
  · intro a ha; simp at ha
  · exact List.Pairwise.nil
  · intro i t j hget; simp at hget
  · intro j u hget; simp at hget
  · intro i t hget; simp at hget
  · intro a ha; simp at ha
  · intro i₁ t₁ j₁ i₂ t₂ j₂ hget; simp at hget

/-- Emitting a non-bracket instruction preserves the invariant. -/
theorem TkInv.push_plain {st : TkState} (h : TkInv st) (c : Char) (ln : Nat)
    (hc1 : c ≠ '[') (hc2 : c ≠ ']') :
    TkInv { st with opcode_tokens := st.opcode_tokens ++ [⟨c, none, ln⟩] } := by
  obtain ⟨slt, sopen, sdec, omatch, cmatch, opend, ssep, ncross⟩ := h
  have hnew : ∀ {i : Nat} {t : Token},
      (st.opcode_tokens ++ [⟨c, none, ln⟩])[i]? = some t →
      (t.opcode = '[' ∨ t.opcode = ']') →
      i < st.opcode_tokens.length ∧ st.opcode_tokens[i]? = some t := by
    intro i t hget hbr
    rcases getElem?_concat_cases hget with ⟨hi, hold⟩ | ⟨_, hnew⟩
    · exact ⟨hi, hold⟩
    · subst hnew
      rcases hbr with hbr | hbr
      · exact absurd hbr hc1
      · exact absurd hbr hc2
  constructor
  · intro a ha
    have := slt a ha
    simp only [List.length_append, List.length_singleton]
    omega
  · intro a ha
    obtain ⟨t, hget, hop, hjmp⟩ := sopen a ha
    exact ⟨t, by rw [List.getElem?_append_left (slt a ha)]; exact hget, hop, hjmp⟩
  · exact sdec
  · intro i t j hget hop hjmp
    obtain ⟨hi, hold⟩ := hnew hget (Or.inl hop)
    obtain ⟨hij, u, huget, huop, hujmp⟩ := omatch i t j hold hop hjmp
    have hj : j < st.opcode_tokens.length := (List.getElem?_eq_some.mp huget).1
    exact ⟨hij, u, by rw [List.getElem?_append_left hj]; exact huget, huop, hujmp⟩
  · intro j u hget hcl
    obtain ⟨hj, hold⟩ := hnew hget (Or.inr hcl)
    obtain ⟨i, hji, hij, t, htget, htop, htjmp⟩ := cmatch j u hold hcl
    have hi : i < st.opcode_tokens.length := (List.getElem?_eq_some.mp htget).1
    exact ⟨i, hji, hij, t, by rw [List.getElem?_append_left hi]; exact htget, htop, htjmp⟩
  · intro i t hget hop hjmp
    obtain ⟨hi, hold⟩ := hnew hget (Or.inl hop)
    exact opend i t hold hop hjmp
  · intro a ha i t j hget hop hjmp
    obtain ⟨hi, hold⟩ := hnew hget (Or.inl hop)
    exact ssep a ha i t j hold hop hjmp
  · intro i₁ t₁ j₁ i₂ t₂ j₂ hg1 hop1 hj1 hg2 hop2 hj2 hlt
    obtain ⟨hi1, hold1⟩ := hnew hg1 (Or.inl hop1)
    obtain ⟨hi2, hold2⟩ := hnew hg2 (Or.inl hop2)
    exact ncross i₁ t₁ j₁ i₂ t₂ j₂ hold1 hop1 hj1 hold2 hop2 hj2 hlt

/-- Emitting a loop-open and pushing its index preserves the invariant. -/
theorem TkInv.push_open {st : TkState} (h : TkInv st) (ln : Nat) :
    TkInv { st with
      opcode_tokens := st.opcode_tokens ++ [⟨'[', none, ln⟩],
      scope_open_addrs := st.opcode_tokens.length :: st.scope_open_addrs } := by
  obtain ⟨slt, sopen, sdec, omatch, cmatch, opend, ssep, ncross⟩ := h
  have hnew : ∀ {i : Nat} {t : Token},
      (st.opcode_tokens ++ [⟨'[', none, ln⟩])[i]? = some t →
      (i < st.opcode_tokens.length ∧ st.opcode_tokens[i]? = some t) ∨
      (i = st.opcode_tokens.length ∧ t = ⟨'[', none, ln⟩) :=
    fun hget => getElem?_concat_cases hget
  constructor
  · intro a ha
    simp only [List.length_append, List.length_singleton]
    rcases List.mem_cons.mp ha with ha | ha
    · omega
    · have := slt a ha
      omega
  · intro a ha
    rcases List.mem_cons.mp ha with ha | ha
    · subst ha
      exact ⟨⟨'[', none, ln⟩, List.getElem?_concat_length _ _, rfl, rfl⟩
    · obtain ⟨t, hget, hop, hjmp⟩ := sopen a ha
      exact ⟨t, by rw [List.getElem?_append_left (slt a ha)]; exact hget, hop, hjmp⟩
  · exact List.pairwise_cons.mpr ⟨fun b hb => slt b hb, sdec⟩
  · intro i t j hget hop hjmp
    rcases hnew hget with ⟨hi, hold⟩ | ⟨_, hnewt⟩
    · obtain ⟨hij, u, huget, huop, hujmp⟩ := omatch i t j hold hop hjmp
      have hj : j < st.opcode_tokens.length := (List.getElem?_eq_some.mp huget).1
      exact ⟨hij, u, by rw [List.getElem?_append_left hj]; exact huget, huop, hujmp⟩
    · subst hnewt
      cases hjmp
  · intro j u hget hcl
    rcases hnew hget with ⟨hj, hold⟩ | ⟨_, hnewt⟩
    · obtain ⟨i, hji, hij, t, htget, htop, htjmp⟩ := cmatch j u hold hcl
      have hi : i < st.opcode_tokens.length := (List.getElem?_eq_some.mp htget).1
      exact ⟨i, hji, hij, t, by rw [List.getElem?_append_left hi]; exact htget, htop, htjmp⟩
    · subst hnewt
      cases hcl
  · intro i t hget hop hjmp
    rcases hnew hget with ⟨hi, hold⟩ | ⟨hieq, _⟩
    · exact List.mem_cons_of_mem _ (opend i t hold hop hjmp)
    · subst hieq
      exact List.mem_cons_self _ _
  · intro a ha i t j hget hop hjmp
    rcases hnew hget with ⟨hi, hold⟩ | ⟨_, hnewt⟩
    · rcases List.mem_cons.mp ha with ha | ha
      · subst ha
        have hj : j < st.opcode_tokens.length :=
          (List.getElem?_eq_some.mp (omatch i t j hold hop hjmp).2.choose_spec.1).1
        exact Or.inl hj
      · exact ssep a ha i t j hold hop hjmp
    · subst hnewt
      cases hjmp
  · intro i₁ t₁ j₁ i₂ t₂ j₂ hg1 hop1 hj1 hg2 hop2 hj2 hlt
    rcases hnew hg1 with ⟨hi1, hold1⟩ | ⟨_, hnewt⟩
    · rcases hnew hg2 with ⟨hi2, hold2⟩ | ⟨_, hnewt⟩
      · exact ncross i₁ t₁ j₁ i₂ t₂ j₂ hold1 hop1 hj1 hold2 hop2 hj2 hlt
      · subst hnewt
        cases hj2
    · subst hnewt
      cases hj1

/-- Shifting a lookup across a one-element extension. -/
theorem getElem?_append_some {α : Type} {l₁ l₂ : List α} {i : Nat} {x : α}
    (h : l₁[i]? = some x) : (l₁ ++ l₂)[i]? = some x := by
  rw [List.getElem?_append_left (List.getElem?_eq_some.mp h).1]
  exact h

/-- Emitting a loop-close — popping the top pending open and wiring the
two jump targets to each other — preserves the invariant. -/
theorem TkInv.push_close {st : TkState} (h : TkInv st) (ln a : Nat) (sk : List Nat)
    (hsk : st.scope_open_addrs = a :: sk) :
    TkInv { st with
      opcode_tokens := setJumpAt (st.opcode_tokens ++ [⟨']', some a, ln⟩]) a
        st.opcode_tokens.length,
      scope_open_addrs := sk } := by
  obtain ⟨slt, sopen, sdec, omatch, cmatch, opend, ssep, ncross⟩ := h
  have ha_mem : a ∈ st.scope_open_addrs := by
    rw [hsk]
    exact List.mem_cons_self _ _
  have ha_lt : a < st.opcode_tokens.length := slt a ha_mem
  obtain ⟨ta, hta, hta_op, hta_j⟩ := sopen a ha_mem
  have hsk_lt : ∀ b ∈ sk, b < a := (List.pairwise_cons.mp (hsk ▸ sdec)).1
  have hsk_dec : sk.Pairwise (fun x y => y < x) :=
    (List.pairwise_cons.mp (hsk ▸ sdec)).2
  have hsk_mem : ∀ b ∈ sk, b ∈ st.scope_open_addrs := by
    intro b hb
    rw [hsk]
    exact List.mem_cons_of_mem _ hb
  have hF1 : (setJumpAt (st.opcode_tokens ++ [⟨']', some a, ln⟩]) a
      st.opcode_tokens.length)[a]? =
      some { ta with jump_addr := some st.opcode_tokens.length } := by
    apply setJumpAt_getElem?_eq
    exact getElem?_append_some hta
  have hFn : (setJumpAt (st.opcode_tokens ++ [⟨']', some a, ln⟩]) a
      st.opcode_tokens.length)[st.opcode_tokens.length]? =
      some ⟨']', some a, ln⟩ := by
    rw [setJumpAt_getElem?_ne _ _ _ _ (Nat.ne_of_gt ha_lt)]
    exact List.getElem?_concat_length _ _
  have hFold : ∀ (k : Nat), k ≠ a → k < st.opcode_tokens.length →
      (setJumpAt (st.opcode_tokens ++ [⟨']', some a, ln⟩]) a
        st.opcode_tokens.length)[k]? = st.opcode_tokens[k]? := by
    intro k hk hklt
    rw [setJumpAt_getElem?_ne _ _ _ _ hk, List.getElem?_append_left hklt]
  have hchar : ∀ {k : Nat} {t : Token},
      (setJumpAt (st.opcode_tokens ++ [⟨']', some a, ln⟩]) a
        st.opcode_tokens.length)[k]? = some t →
      (k = a ∧ t = { ta with jump_addr := some st.opcode_tokens.length }) ∨
      (k = st.opcode_tokens.length ∧ t = ⟨']', some a, ln⟩) ∨
      (k < st.opcode_tokens.length ∧ k ≠ a ∧ st.opcode_tokens[k]? = some t) := by
    intro k t hget
    by_cases hk : k = a
    · subst hk
      rw [hF1] at hget
      injection hget with hget
      exact Or.inl ⟨rfl, hget.symm⟩
    · rw [setJumpAt_getElem?_ne _ _ _ _ hk] at hget
      rcases getElem?_concat_cases hget with ⟨hklt, hold⟩ | ⟨hkeq, hteq⟩
      · exact Or.inr (Or.inr ⟨hklt, hk, hold⟩)
      · exact Or.inr (Or.inl ⟨hkeq, hteq⟩)
  constructor
  · intro b hb
    have hba := hsk_lt b hb
    rw [setJumpAt_length]
    simp only [List.length_append, List.length_singleton]
    omega
  · intro b hb
    have hba := hsk_lt b hb
    obtain ⟨tb, htb, htb_op, htb_j⟩ := sopen b (hsk_mem b hb)
    exact ⟨tb, by rw [hFold b (by omega) (slt b (hsk_mem b hb))]; exact htb,
      htb_op, htb_j⟩
  · exact hsk_dec
  · intro i t j hget hop hjmp
    rcases hchar hget with ⟨hia, hteq⟩ | ⟨hin, hteq⟩ | ⟨hilt, hine, hold⟩
    · subst hteq
      have hj' : some st.opcode_tokens.length = some j := hjmp
      injection hj' with hj'
      subst hj'
      refine ⟨by omega, ⟨']', some a, ln⟩, hFn, rfl, ?_⟩
      rw [hia]
    · subst hteq
      exact absurd hop (by simp)
    · obtain ⟨hij, u, huget, huop, hujmp⟩ := omatch i t j hold hop hjmp
      have hjlt : j < st.opcode_tokens.length := (List.getElem?_eq_some.mp huget).1
      have hjne : j ≠ a := by
        intro hja
        subst hja
        have heq := hta.symm.trans huget
        injection heq with heq
        rw [← heq] at huop
        rw [hta_op] at huop
        exact absurd huop (by decide)
      exact ⟨hij, u, by rw [hFold j hjne hjlt]; exact huget, huop, hujmp⟩
  · intro j u hget hcl
    rcases hchar hget with ⟨hja, hueq⟩ | ⟨hjn, hueq⟩ | ⟨hjlt, hjne, hold⟩
    · subst hueq
      have hcl' : ta.opcode = ']' := hcl
      rw [hta_op] at hcl'
      exact absurd hcl' (by decide)
    · subst hjn
      subst hueq
      exact ⟨a, rfl, ha_lt,
        { ta with jump_addr := some st.opcode_tokens.length }, hF1, hta_op, rfl⟩
    · obtain ⟨i, hji, hij, t, htget, htop, htjmp⟩ := cmatch j u hold hcl
      have hilt : i < st.opcode_tokens.length := (List.getElem?_eq_some.mp htget).1
      have hine : i ≠ a := by
        intro hia
        subst hia
        have heq := hta.symm.trans htget
        injection heq with heq
        rw [← heq] at htjmp
        rw [hta_j] at htjmp
        cases htjmp
      exact ⟨i, hji, hij, t, by rw [hFold i hine hilt]; exact htget, htop, htjmp⟩
  · intro i t hget hop hjn
    rcases hchar hget with ⟨hia, hteq⟩ | ⟨hin, hteq⟩ | ⟨hilt, hine, hold⟩
    · subst hteq
      have hjn' : some st.opcode_tokens.length = (none : Option Nat) := hjn
      cases hjn'
    · subst hteq
      exact absurd hop (by simp)
    · have hmem := opend i t hold hop hjn
      rw [hsk] at hmem
      rcases List.mem_cons.mp hmem with hia | hisk
      · exact absurd hia hine
      · exact hisk
  · intro b hb i t j hget hop hjmp
    have hba : b < a := hsk_lt b hb
    rcases hchar hget with ⟨hia, hteq⟩ | ⟨hin, hteq⟩ | ⟨hilt, hine, hold⟩
    · exact Or.inr (by omega)
    · subst hteq
      exact absurd hop (by simp)
    · exact ssep b (hsk_mem b hb) i t j hold hop hjmp
  · intro i₁ t₁ j₁ i₂ t₂ j₂ hg1 hop1 hj1 hg2 hop2 hj2 hlt
    rcases hchar hg1 with ⟨hi1a, ht1⟩ | ⟨hi1n, ht1⟩ | ⟨hi1lt, hi1ne, hold1⟩
    · subst ht1
      have hj1' : some st.opcode_tokens.length = some j₁ := hj1
      injection hj1' with hj1'
      rcases hchar hg2 with ⟨hi2a, ht2⟩ | ⟨hi2n, ht2⟩ | ⟨hi2lt, hi2ne, hold2⟩
      · exact absurd hlt (by omega)
      · subst ht2
        exact absurd hop2 (by simp)
      · obtain ⟨_, u₂, hu₂, _, _⟩ := omatch i₂ t₂ j₂ hold2 hop2 hj2
        have hj2lt : j₂ < st.opcode_tokens.length := (List.getElem?_eq_some.mp hu₂).1
        exact Or.inr (by omega)
    · subst ht1
      exact absurd hop1 (by simp)
    · rcases hchar hg2 with ⟨hi2a, ht2⟩ | ⟨hi2n, ht2⟩ | ⟨hi2lt, hi2ne, hold2⟩
      · rcases ssep a ha_mem i₁ t₁ j₁ hold1 hop1 hj1 with hja | hai
        · exact Or.inl (by omega)
        · exact absurd hlt (by omega)
      · subst ht2
        exact absurd hop2 (by simp)
      · exact ncross i₁ t₁ j₁ i₂ t₂ j₂ hold1 hop1 hj1 hold2 hop2 hj2 hlt

/-- The invariant is preserved across the scan of one line. -/
theorem tokenizeLine_inv (ln : Nat) (cs : List Char) :
    ∀ st st' : TkState, TkInv st → tokenizeLine ln cs st = .ok st' → TkInv st' := by
  induction cs with
  | nil =>
    intro st st' h he
    simp only [tokenizeLine, Except.ok.injEq] at he
    subst he
    exact h
  | cons c rest ih =>
    intro st st' h he
    by_cases hc : c ∈ opcode_chars
    · by_cases hb : c = '['
      · subst hb
        rw [tokenizeLine_cons_open] at he
        exact ih _ _ (h.push_open ln) he
      · by_cases hb2 : c = ']'
        · subst hb2
          rcases hsk : st.scope_open_addrs with _ | ⟨a, sk⟩
          · rw [tokenizeLine_cons_close_nil _ _ _ hsk] at he
            cases he
          · rw [tokenizeLine_cons_close _ _ _ _ _ hsk] at he
            exact ih _ _ (h.push_close ln a sk hsk) he
        · rw [tokenizeLine_cons_plain _ _ _ _ hc hb hb2] at he
          exact ih _ _ (h.push_plain c ln hb hb2) he
    · by_cases hcm : c ∈ comment_tokens
      · rw [tokenizeLine_cons_comment _ _ _ _ hc hcm] at he
        injection he with he
        subst he
        exact h
      · cases hw : rust_is_whitespace c
        · rw [tokenizeLine_cons_unknown _ _ _ _ hc hcm hw] at he
          exact ih _ _ (h.set_warnings _) he
        · rw [tokenizeLine_cons_ws _ _ _ _ hc hcm hw] at he
          exact ih _ _ h he

/-- The invariant is preserved across the whole scan. -/
theorem tokenizeGo_inv (lls : List (List Char)) :
    ∀ (ln : Nat) (st st' : TkState), TkInv st → tokenizeGo ln lls st = .ok st' →
    TkInv st' := by
  induction lls with
  | nil =>
    intro ln st st' h he
    simp only [tokenizeGo, Except.ok.injEq] at he
    subst he
    exact h
  | cons l ls ih =>
    intro ln st st' h he
    rcases hr : tokenizeLine ln l st with e | r
    · rw [tokenizeGo_cons_error _ _ _ _ _ hr] at he
      cases he
    · rw [tokenizeGo_cons_ok _ _ _ _ _ hr] at he
      exact ih _ _ _ (tokenizeLine_inv ln l st r h hr) he

/-- A program whose joined code has a successful depth scan never hits
an unmatched close on any line. -/
theorem underflowLine_none_of_balScan (lls : List (List Char)) :
    ∀ (ln d e : Nat), balScan (codeJoin lls) d = some e →
    underflowLine ln lls d = none := by
  induction lls with
  | nil => intro ln d e _; rfl
  | cons l ls ih =>
    intro ln d e hb
    have hcj : codeJoin (l :: ls) = lineCode l ++ codeJoin ls := by
      simp [codeJoin]
    rw [hcj, balScan_append] at hb
    rcases hbl : balScan (lineCode l) d with _ | d'
    · rw [hbl] at hb
      cases hb
    · rw [hbl] at hb
      simp only [underflowLine, hbl]
      exact ih (ln + 1) d' e hb

/-- C1: for every source program with balanced loop brackets, assembly
succeeds, and in the produced stream every loop-open's jump target
strictly exceeds its own index and points at a loop-close whose jump
target points straight back (and symmetrically every loop-close points
back at a loop-open pointing at it), with the pairing non-crossing —
i.e. exactly the last-open/first-close stack pairing, at every nesting
depth. -/
theorem assembly_pairing (lines : List String)
    (hbal : balScan (progCode lines) 0 = some 0) :
    ∃ ts : List Token, tokenize_lines lines = .ok ts ∧
      (∀ (i : Nat) (t : Token), ts[i]? = some t → t.opcode = '[' →
        ∃ (j : Nat) (u : Token), t.jump_addr = some j ∧ i < j ∧
          ts[j]? = some u ∧ u.opcode = ']' ∧ u.jump_addr = some i) ∧
      (∀ (j : Nat) (u : Token), ts[j]? = some u → u.opcode = ']' →
        ∃ (i : Nat) (t : Token), u.jump_addr = some i ∧ i < j ∧
          ts[i]? = some t ∧ t.opcode = '[' ∧ t.jump_addr = some j) ∧
      (∀ (i₁ : Nat) (t₁ : Token) (j₁ i₂ : Nat) (t₂ : Token) (j₂ : Nat),
        ts[i₁]? = some t₁ → t₁.opcode = '[' → t₁.jump_addr = some j₁ →
        ts[i₂]? = some t₂ → t₂.opcode = '[' → t₂.jump_addr = some j₂ →
        i₁ < i₂ → j₁ < i₂ ∨ j₂ < j₁) := by
  have huf : underflowLine 1 (lines.map String.toList) 0 = none :=
    underflowLine_none_of_balScan _ 1 0 0 hbal
  obtain ⟨st', hok, hlen⟩ :=
    (tokenizeGo_balance (lines.map String.toList) 1 ⟨[], [], []⟩).2 0 huf hbal
  have hinv := tokenizeGo_inv (lines.map String.toList) 1 _ _ TkInv_initial hok
  have hnil : st'.scope_open_addrs = [] := List.length_eq_zero.mp hlen
  refine ⟨st'.opcode_tokens, ?_, ?_, ?_, ?_⟩
  · unfold tokenize_lines tokenize_chars
    simp only [hok]
    simp [hnil]
  · intro i t hget hop
    rcases hj : t.jump_addr with _ | j
    · have hmem := hinv.open_pending i t hget hop hj
      rw [hnil] at hmem
      simp at hmem
    · obtain ⟨hij, u, hu, huop, huj⟩ := hinv.open_match i t j hget hop hj
      exact ⟨j, u, rfl, hij, hu, huop, huj⟩
  · intro j u hget hcl
    obtain ⟨i, hji, hij, t, ht, htop, htj⟩ := hinv.close_match j u hget hcl
    exact ⟨i, t, hji, hij, ht, htop, htj⟩
  · exact hinv.noncross

/-- Witness for C1 on the nested program of a single line of text
consisting of two nested bracket pairs. -/
theorem assembly_pairing_witness :
    ∃ ts : List Token, tokenize_lines ["[[]]"] = .ok ts ∧
      (∀ (i : Nat) (t : Token), ts[i]? = some t → t.opcode = '[' →
        ∃ (j : Nat) (u : Token), t.jump_addr = some j ∧ i < j ∧
          ts[j]? = some u ∧ u.opcode = ']' ∧ u.jump_addr = some i) ∧
      (∀ (j : Nat) (u : Token), ts[j]? = some u → u.opcode = ']' →
        ∃ (i : Nat) (t : Token), u.jump_addr = some i ∧ i < j ∧
          ts[i]? = some t ∧ t.opcode = '[' ∧ t.jump_addr = some j) ∧
      (∀ (i₁ : Nat) (t₁ : Token) (j₁ i₂ : Nat) (t₂ : Token) (j₂ : Nat),
        ts[i₁]? = some t₁ → t₁.opcode = '[' → t₁.jump_addr = some j₁ →
        ts[i₂]? = some t₂ → t₂.opcode = '[' → t₂.jump_addr = some j₂ →
        i₁ < i₂ → j₁ < i₂ ∨ j₂ < j₁) :=
  assembly_pairing ["[[]]"] (by decide)
